import Mathlib

set_option maxRecDepth 4000

attribute [local semireducible] Rat.inv Rat.mul Rat.add Rat.sub

/-!
# Verification of the med-watch-paris dose tracker core

A shallow embedding, in Lean 4, of the pure data-transformation core of
`src/pages/Index.tsx`: the CSV persistence codec (`parseCSV`,
`entriesToCSV`), the time formatting utilities (`formatElapsed`,
`intervalSincePrev`), the elapsed/warning derivations (`elapsed`,
`isWarning`) and the log mutations (`addDose`, `deleteSingleDose`,
`loadEntries`).

Modelling conventions:

* JavaScript strings are modelled as `List Char`.
* JavaScript numbers are modelled as exact rationals (`ℚ`): a finite
  double is idealised as the exact decimal value it prints as, and the
  non-finite results `NaN` / `Infinity` of `Number(...)` are modelled as
  `none : Option ℚ` (the code only ever distinguishes finite from
  non-finite via `Number.isFinite`).
* Luxon `DateTime` values are modelled by their epoch-millisecond value,
  with `none : Option Int` standing for an Invalid DateTime; `Duration`
  values likewise by their total milliseconds, `none` standing for an
  Invalid Duration (whose `as(...)` is `NaN`).
* `DateTime.fromISO` is modelled by `isoMillis`, a parser for the ISO-8601
  profile the app itself writes and the spec documents
  (`YYYY-MM-DDTHH:MM:SS` followed by `Z` or `±HH:MM`); strings outside
  this profile are modelled as unparseable.
* `Array.prototype.sort` with the comparator of `parseCSV` is modelled as
  a stable insertion sort (`sortEntries`), with the ECMAScript rule that a
  `NaN` comparator result is treated as `0`.
-/

/-- A dose record, `type DoseEntry = { tsISO: string; amount: number }`. -/
structure DoseEntry where
  tsISO : List Char
  amount : ℚ
deriving DecidableEq

/-- JS whitespace test used by `String.prototype.trim` / `Number` (ASCII
whitespace subset, which covers every character the codec can emit). -/
def wsChar (c : Char) : Bool :=
  c = ' ' || c = '\t' || c = '\n' || c = '\r'

/-- `String.prototype.trim`: drop leading and trailing whitespace. -/
def jsTrim (s : List Char) : List Char :=
  ((s.dropWhile wsChar).reverse.dropWhile wsChar).reverse

/-- `String.prototype.toLowerCase` (ASCII, enough for the header check). -/
def jsToLower (s : List Char) : List Char :=
  s.map Char.toLower

/-- Prepend a character to the first piece of a split result. -/
def consHead (c : Char) : List (List Char) → List (List Char)
  | l :: ls => (c :: l) :: ls
  | [] => [[c]]

/-- `csv.split(/\r?\n/)`: split on `\n` or `\r\n` (a lone `\r` does not split). -/
def splitLines : List Char → List (List Char)
  | [] => [[]]
  | [c] => if c = '\n' then [[], []] else [[c]]
  | c :: d :: rest =>
    if c = '\n' then [] :: splitLines (d :: rest)
    else if c = '\r' then
      if d = '\n' then [] :: splitLines rest
      else consHead c (splitLines (d :: rest))
    else consHead c (splitLines (d :: rest))

/-- `line.split(",")`: split on every comma. -/
def splitOnComma : List Char → List (List Char)
  | [] => [[]]
  | c :: rest =>
    if c = ',' then [] :: splitOnComma rest
    else consHead c (splitOnComma rest)

/-- `lines.join("\n")`. -/
def joinNL : List (List Char) → List Char
  | [] => []
  | [l] => l
  | l :: ls => l ++ '\n' :: joinNL ls

/-- Value of a hexadecimal digit character, `none` for non-digits. -/
def charHexVal (c : Char) : Option Nat :=
  if c.isDigit then some (c.toNat - 48)
  else if 'a' ≤ c && c ≤ 'f' then some (c.toNat - 87)
  else if 'A' ≤ c && c ≤ 'F' then some (c.toNat - 55)
  else none

/-- Numeric value of a list of decimal digit characters (Horner fold). -/
def digitsVal (l : List Char) : Nat :=
  l.foldl (fun a c => 10 * a + (c.toNat - 48)) 0

/-- Numeric value of a list of base-`b` digit characters. -/
def radixVal (b : Nat) (l : List Char) : Nat :=
  l.foldl (fun a c => b * a + (charHexVal c).getD 0) 0

/-- Whether `c` is a digit in base `b` (for `0x` / `0o` / `0b` literals). -/
def isRadixDigit (b : Nat) (c : Char) : Bool :=
  match charHexVal c with
  | some v => v < b
  | none => false

/-- A finite double must be below `2^1024`; a decimal value at least that
large overflows to `Infinity`, which `Number.isFinite` rejects. -/
def jsChk (q : ℚ) : Option ℚ :=
  if q < ((2 ^ 1024 : Nat) : ℚ) then some q else none

/-- `0x…` / `0o…` / `0b…` integer literal body: requires at least one
digit of the radix and nothing else. -/
def parseRadix (b : Nat) (ds : List Char) : Option ℚ :=
  if ds ≠ [] && ds.all (isRadixDigit b) then jsChk (radixVal b ds) else none

/-- Exponent tail of a decimal literal (after `e` / `E`): optional sign,
then at least one digit and nothing else. -/
def parseExpTail (mant : ℚ) (u : List Char) : Option ℚ :=
  let sgn : Int := if u.head? = some '-' then -1 else 1
  let v := if u.head? = some '-' || u.head? = some '+' then u.drop 1 else u
  let eds := v.takeWhile Char.isDigit
  if eds = [] ∨ v.dropWhile Char.isDigit ≠ [] then none
  else jsChk (mant * (10 : ℚ) ^ (sgn * (digitsVal eds : Int)))

/-- Unsigned decimal literal: `digits`, `digits.digits`, `.digits` or
`digits.`, with an optional exponent part. -/
def parseDec (t : List Char) : Option ℚ :=
  let intDs := t.takeWhile Char.isDigit
  let r1 := t.dropWhile Char.isDigit
  let fracDs := if r1.head? = some '.' then (r1.drop 1).takeWhile Char.isDigit else []
  let r2 := if r1.head? = some '.' then (r1.drop 1).dropWhile Char.isDigit else r1
  if intDs = [] ∧ fracDs = [] then none
  else
    let mant : ℚ := (digitsVal intDs : ℚ) + (digitsVal fracDs : ℚ) / 10 ^ fracDs.length
    if r2 = [] then jsChk mant
    else if r2.head? = some 'e' ∨ r2.head? = some 'E' then parseExpTail mant (r2.drop 1)
    else none

/-- A (sign-stripped) `StrDecimalLiteral`: `Infinity` (non-finite, hence
`none` here) or a decimal literal. -/
def jsDecSigned (t : List Char) : Option ℚ :=
  if t = "Infinity".data then none else parseDec t

/-- An unsigned `StrNumericLiteral`: a radix-prefixed integer literal or a
decimal literal / `Infinity`. A sign prefix is not allowed on radix
literals, which is why this is only used on sign-free input. -/
def jsUnsigned (t : List Char) : Option ℚ :=
  if t.take 2 = ['0', 'x'] ∨ t.take 2 = ['0', 'X'] then parseRadix 16 (t.drop 2)
  else if t.take 2 = ['0', 'b'] ∨ t.take 2 = ['0', 'B'] then parseRadix 2 (t.drop 2)
  else if t.take 2 = ['0', 'o'] ∨ t.take 2 = ['0', 'O'] then parseRadix 8 (t.drop 2)
  else jsDecSigned t

/-- `Number(s)` for a string `s`, composed with the `Number.isFinite`
distinction the code makes: `some q` models a finite double of value `q`,
`none` models `NaN` or `±Infinity`. Whitespace is trimmed and the empty
(or all-whitespace) string converts to `0`, exactly as in ECMAScript. -/
def jsNumber (s : List Char) : Option ℚ :=
  let t := jsTrim s
  if t = [] then some 0
  else if t.head? = some '-' then (jsDecSigned (t.drop 1)).map Neg.neg
  else if t.head? = some '+' then jsDecSigned (t.drop 1)
  else jsUnsigned t

/-- Digit characters of `n`, most significant first (empty for `0`); the
fuel argument only bounds the recursion and `fuel = n` always suffices. -/
def natStrAux (fuel n : Nat) : List Char :=
  match fuel with
  | 0 => []
  | fuel + 1 => if n = 0 then [] else natStrAux fuel (n / 10) ++ [Nat.digitChar (n % 10)]

/-- Decimal digit string of a natural number, as JS prints integers. -/
def natStr (n : Nat) : List Char :=
  if n = 0 then ['0'] else natStrAux n n

/-- Decimal string of an integer (JS `toString` of an integral double). -/
def intStr (z : Int) : List Char :=
  if z < 0 then '-' :: natStr z.natAbs else natStr z.natAbs

/-- Pad a digit string on the left with zeros to length `j`. -/
def padLeft (j : Nat) (s : List Char) : List Char :=
  List.replicate (j - s.length) '0' ++ s

/-- Absolute value computed by a sign test; definitionally reducible,
which `|q|` (via lattice instances) is not. -/
def absQ (q : ℚ) : ℚ :=
  if q < 0 then -q else q

/-- Smallest number of decimal fraction digits needed to write `q`
exactly, found by repeated scaling (fuel covers every double, whose
denominator divides `2 ^ 1074`). `none` for rationals that are not
exactly decimal — no double is such a value. -/
def decExpAux : Nat → ℚ → Option Nat
  | 0, _ => none
  | fuel + 1, q => if q.den = 1 then some 0 else (decExpAux fuel (q * 10)).map Nat.succ

/-- Number of decimal fraction digits of `q` (see `decExpAux`). -/
def decExp (q : ℚ) : Option Nat :=
  decExpAux 1200 q

/-- Render the decimal with value `m / 10 ^ j` (with `j` minimal, so no
trailing fraction zeros), as JS `toString` prints a non-negative double
in the plain (non-exponent) range. -/
def renderDec (m : Nat) (j : Nat) : List Char :=
  if j = 0 then natStr m
  else natStr (m / 10 ^ j) ++ '.' :: padLeft j (natStr (m % 10 ^ j))

/-- JS number-to-string for a finite double (idealised as an exact
decimal rational): shortest plain decimal form, with a `-` sign for
negative values; whole numbers print with no decimal point at all.
The fallback `"0"` branch is unreachable for values of actual doubles. -/
def jsNumToString (q : ℚ) : List Char :=
  let a := absQ q
  let s :=
    match decExp a with
    | some j => renderDec (a * 10 ^ j).num.toNat j
    | none => ['0']
  if q < 0 then '-' :: s else s

/-- The model-side rendering of "is a finite JS number": exactly decimal
(every double is) and below the double overflow threshold. -/
def jsFinite (q : ℚ) : Prop :=
  (decExp (absQ q)).isSome ∧ absQ q < ((2 ^ 1024 : Nat) : ℚ)

instance (q : ℚ) : Decidable (jsFinite q) :=
  inferInstanceAs
    (Decidable ((decExp (absQ q)).isSome = true ∧ absQ q < ((2 ^ 1024 : Nat) : ℚ)))

/-- Characters an ISO timestamp of the modelled profile may contain. -/
def isoChar (c : Char) : Bool :=
  c.isDigit || c = '-' || c = ':' || c = 'T' || c = 'Z' || c = '+'

/-- `y % 4 == 0 && (y % 100 != 0 || y % 400 == 0)` (proleptic Gregorian). -/
def isLeapYear (y : Nat) : Bool :=
  y % 4 = 0 && (y % 100 ≠ 0 || y % 400 = 0)

/-- Days in month `m` of year `y` (`0` for an out-of-range month). -/
def daysInMonth (y : Nat) (m : Nat) : Nat :=
  match m with
  | 1 => 31
  | 2 => if isLeapYear y then 29 else 28
  | 3 => 31
  | 4 => 30
  | 5 => 31
  | 6 => 30
  | 7 => 31
  | 8 => 31
  | 9 => 30
  | 10 => 31
  | 11 => 30
  | 12 => 31
  | _ => 0

/-- Julian day number of the Gregorian date `y-m-d` (valid for the years
`0..9999` a four-digit timestamp can carry). -/
def jdn (y m d : Nat) : Nat :=
  let a := (14 - m) / 12
  let y2 := y + 4800 - a
  let m2 := m + 12 * a - 3
  d + (153 * m2 + 2) / 5 + 365 * y2 + y2 / 4 - y2 / 100 + y2 / 400 - 32045

/-- Epoch milliseconds of date `y-m-d`, time `hh:mi:ss`, at UTC offset
`offMin` minutes. -/
def civilMillis (y m d hh mi ss : Nat) (offMin : Int) : Int :=
  (((jdn y m d : Int) - 2440588) * 86400
    + (hh : Int) * 3600 + (mi : Int) * 60 + (ss : Int)
    - offMin * 60) * 1000

/-- Digit value of a character. -/
def dv (c : Char) : Nat := c.toNat - 48

/-- Core of the ISO-8601 parse: recognise exactly the profile
`YYYY-MM-DDTHH:MM:SS` followed by `Z` or `±HH:MM`, validating calendar
and clock ranges, and return the epoch milliseconds. -/
def isoCore : List Char → Option Int
  | y1 :: y2 :: y3 :: y4 :: '-' :: mo1 :: mo2 :: '-' :: d1 :: d2 :: 'T' ::
      h1 :: h2 :: ':' :: mi1 :: mi2 :: ':' :: s1 :: s2 :: off =>
    if (y1.isDigit && y2.isDigit && y3.isDigit && y4.isDigit &&
        mo1.isDigit && mo2.isDigit && d1.isDigit && d2.isDigit &&
        h1.isDigit && h2.isDigit && mi1.isDigit && mi2.isDigit &&
        s1.isDigit && s2.isDigit) then
      let y := dv y1 * 1000 + dv y2 * 100 + dv y3 * 10 + dv y4
      let mo := dv mo1 * 10 + dv mo2
      let d := dv d1 * 10 + dv d2
      let hh := dv h1 * 10 + dv h2
      let mi := dv mi1 * 10 + dv mi2
      let ss := dv s1 * 10 + dv s2
      if 1 ≤ mo && mo ≤ 12 && 1 ≤ d && d ≤ daysInMonth y mo &&
          hh ≤ 23 && mi ≤ 59 && ss ≤ 59 then
        match off with
        | ['Z'] => some (civilMillis y mo d hh mi ss 0)
        | ['+', o1, o2, ':', o3, o4] =>
          if o1.isDigit && o2.isDigit && o3.isDigit && o4.isDigit &&
              dv o1 * 10 + dv o2 ≤ 23 && dv o3 * 10 + dv o4 ≤ 59 then
            some (civilMillis y mo d hh mi ss ((dv o1 * 10 + dv o2) * 60 + (dv o3 * 10 + dv o4)))
          else none
        | ['-', o1, o2, ':', o3, o4] =>
          if o1.isDigit && o2.isDigit && o3.isDigit && o4.isDigit &&
              dv o1 * 10 + dv o2 ≤ 23 && dv o3 * 10 + dv o4 ≤ 59 then
            some (civilMillis y mo d hh mi ss (-((dv o1 * 10 + dv o2) * 60 + (dv o3 * 10 + dv o4) : Int)))
          else none
        | _ => none
      else none
    else none
  | _ => none

/-- `DateTime.fromISO(s).toMillis()`: `some` epoch milliseconds for a
timestamp of the modelled ISO profile, `none` (Invalid DateTime, `NaN`
millis) otherwise. The `all isoChar` guard is redundant with `isoCore`
(every accepted character is a digit or one of `-:TZ+`) and makes that
fact directly available to proofs. -/
def isoMillis (s : List Char) : Option Int :=
  if s.all isoChar then isoCore s else none

/-- Parsed-instant key of an entry (`DateTime.fromISO(e.tsISO).toMillis()`). -/
def tsMillis (e : DoseEntry) : Option Int :=
  isoMillis e.tsISO

/-- The sort comparator `(a, b) => DateTime.fromISO(b.tsISO).toMillis() -
DateTime.fromISO(a.tsISO).toMillis()`, with the ECMAScript `SortCompare`
rule that a `NaN` result counts as `0`. -/
def jsCompare (a b : DoseEntry) : Int :=
  match tsMillis b, tsMillis a with
  | some mb, some ma => mb - ma
  | _, _ => 0

/-- `a` may stay before `b` under the comparator (comparator value ≤ 0). -/
def jsLE (a b : DoseEntry) : Bool :=
  jsCompare a b ≤ 0

/-- Stable insertion of an entry into a comparator-sorted list. -/
def insertEntry (e : DoseEntry) : List DoseEntry → List DoseEntry
  | [] => [e]
  | x :: xs => if jsLE e x then e :: x :: xs else x :: insertEntry e xs

/-- `entries.sort(comparator)`: a stable sort consistent with the
comparator, modelled as insertion sort. -/
def sortEntries (l : List DoseEntry) : List DoseEntry :=
  l.foldr insertEntry []

/-- One data line of `parseCSV`: `const [ts, amt] = line.split(",")`,
reject a falsy (missing or empty) field, parse the amount with `Number`,
keep the line only when the amount is finite, trimming the timestamp. -/
def parseLine (line : List Char) : Option DoseEntry :=
  match splitOnComma line with
  | ts :: amt :: _ =>
    if ts = [] ∨ amt = [] then none
    else
      match jsNumber amt with
      | some q => some ⟨jsTrim ts, q⟩
      | none => none
  | _ => none

/-- `const CSV_HEADER = "timestamp,amount"`. -/
def CSV_HEADER : List Char :=
  "timestamp,amount".data

/-- `parseCSV(csv)`: trim, split into non-empty lines, drop a recognised
header line, parse each remaining line, sort descending by parsed
timestamp. -/
def parseCSV (csv : List Char) : List DoseEntry :=
  match (splitLines (jsTrim csv)).filter (fun l => !l.isEmpty) with
  | [] => []
  | l0 :: rest =>
    let rows := if ("timestamp,".data).isPrefixOf (jsToLower l0) then rest else l0 :: rest
    sortEntries (rows.filterMap parseLine)

/-- `entriesToCSV(entries)`: the header line followed by one
`tsISO,amount` line per entry, in the given order, joined by `\n`. -/
def entriesToCSV (entries : List DoseEntry) : List Char :=
  joinNL (CSV_HEADER :: entries.map (fun e => e.tsISO ++ ',' :: jsNumToString e.amount))

/-- `loadEntries()`: `stored` is the value of
`localStorage.getItem(CSV_KEY)` (`none` for `null`); a falsy value (null
or the empty string) yields `[]`, anything else is decoded with
`parseCSV`. The `try/catch` of the source collapses to a plain call
because every operation `parseCSV` performs is total and non-throwing. -/
def loadEntries (stored : Option (List Char)) : List DoseEntry :=
  match stored with
  | none => []
  | some csv => if csv = [] then [] else parseCSV csv

/-- `const RED_THRESHOLD_MIN = 90`. -/
def RED_THRESHOLD_MIN : ℚ := 90

/-- `lastDoseDT`: `entries.length > 0 ? DateTime.fromISO(entries[0].tsISO)
: null`. `none` models `null`; `some none` models an Invalid DateTime. -/
def lastDoseDT (entries : List DoseEntry) : Option (Option Int) :=
  match entries with
  | [] => none
  | e :: _ => some (isoMillis e.tsISO)

/-- `elapsed`: `null` when there is no last dose, otherwise the duration
`nowParis().diff(lastDoseDT, ["hours","minutes","seconds"])` whose total
is `nowMs - lastMs` milliseconds (Invalid when the stored timestamp does
not parse). -/
def elapsed (nowMs : Int) (entries : List DoseEntry) : Option (Option Int) :=
  match lastDoseDT entries with
  | none => none
  | some dt =>
    some (match dt with
      | some m => some (nowMs - m)
      | none => none)

/-- `isWarning`: `false` for a null elapsed, otherwise
`elapsed.as("minutes") < RED_THRESHOLD_MIN` (an Invalid Duration gives
`NaN < 90`, which is `false`). -/
def isWarning (el : Option (Option Int)) : Bool :=
  match el with
  | none => false
  | some none => false
  | some (some ms) => decide ((ms : ℚ) / 60000 < RED_THRESHOLD_MIN)

/-- The `pad` helper of `formatElapsed`: left-pad to two characters with
`0` when the value is below ten. -/
def jsPad (n : Int) : List Char :=
  if n < 10 then '0' :: intStr n else intStr n

/-- `formatElapsed(d)`: split the duration into whole hours (not taken
modulo 24), minutes and seconds with `Math.floor`, and render as
zero-padded `HH:MM:SS`. An Invalid Duration renders as `NaN:NaN:NaN`
(every component is `NaN`). -/
def formatElapsed (d : Option Int) : List Char :=
  match d with
  | none => "NaN:NaN:NaN".data
  | some ms =>
    let hh : Int := ⌊(ms : ℚ) / 3600000⌋
    let mm : Int := ⌊((ms : ℚ) - hh * 3600000) / 60000⌋
    let ss : Int := ⌊((ms : ℚ) - hh * 3600000 - mm * 60000) / 1000⌋
    jsPad hh ++ ':' :: jsPad mm ++ ':' :: jsPad ss

/-- `intervalSincePrev(i)` (current version, without the removed
`.negate()`): a dash for the last history item, otherwise the duration
from the next-older entry to entry `i` rendered as `<H>h <M>m`. Out of
range indices, where the JS code would dereference `undefined`, are
modelled as `none`; an unparseable timestamp yields the `NaNh NaNm`
rendering of the Invalid Duration. -/
def intervalSincePrev (entries : List DoseEntry) (i : Nat) : Option (List Char) :=
  if (i : Int) = (entries.length : Int) - 1 then some ['—']
  else
    match entries[i]?, entries[i + 1]? with
    | some curr, some prev =>
      match isoMillis curr.tsISO, isoMillis prev.tsISO with
      | some mc, some mp =>
        let delta : Int := mc - mp
        let h : Int := ⌊(delta : ℚ) / 3600000⌋
        let m : Int := ⌊((delta : ℚ) - h * 3600000) / 60000⌋
        some (intStr h ++ 'h' :: ' ' :: intStr m ++ ['m'])
      | _, _ => some ("NaNh NaNm".data)
    | _, _ => none

/-- `Number(doseAmt.toFixed(1))`: round to the nearest tenth, ties away
from the smaller value (`toFixed` picks the larger candidate). -/
def toFixed1 (q : ℚ) : ℚ :=
  (⌊q * 10 + 1 / 2⌋ : ℚ) / 10

/-- `addDose`: prepend a record timestamped now with the slider amount
rounded to one decimal. `nowISO` is `toISOParis(nowParis())`. -/
def addDose (nowISO : List Char) (doseAmt : ℚ) (entries : List DoseEntry) : List DoseEntry :=
  ⟨nowISO, toFixed1 doseAmt⟩ :: entries

/-- `deleteSingleDose`: keep the entries whose timestamp string differs
from the one being deleted. -/
def deleteSingleDose (entries : List DoseEntry) (entryToDelete : DoseEntry) : List DoseEntry :=
  entries.filter (fun e => decide (e.tsISO ≠ entryToDelete.tsISO))

/-! ## Utility lemmas: digit strings and `digitsVal` -/

theorem digitsVal_from (A : Nat) (l : List Char) :
    l.foldl (fun a c => 10 * a + (c.toNat - 48)) A = A * 10 ^ l.length + digitsVal l := by
  induction l generalizing A with
  | nil => simp [digitsVal]
  | cons c t ih =>
    have h2 : digitsVal (c :: t) = (c.toNat - 48) * 10 ^ t.length + digitsVal t := by
      show List.foldl (fun a d => 10 * a + (d.toNat - 48)) (10 * 0 + (c.toNat - 48)) t = _
      rw [ih]
      norm_num
    show List.foldl (fun a d => 10 * a + (d.toNat - 48)) (10 * A + (c.toNat - 48)) t = _
    rw [ih, h2, List.length_cons, pow_succ]
    ring

theorem digitsVal_append (a b : List Char) :
    digitsVal (a ++ b) = digitsVal a * 10 ^ b.length + digitsVal b := by
  unfold digitsVal
  rw [List.foldl_append]
  exact digitsVal_from _ b

theorem digitsVal_cons (c : Char) (t : List Char) :
    digitsVal (c :: t) = (c.toNat - 48) * 10 ^ t.length + digitsVal t := by
  have := digitsVal_append [c] t
  simpa [digitsVal] using this

theorem digitChar_isDigit {d : Nat} (h : d < 10) : (Nat.digitChar d).isDigit = true := by
  interval_cases d <;> decide

theorem digitChar_val {d : Nat} (h : d < 10) : (Nat.digitChar d).toNat - 48 = d := by
  interval_cases d <;> decide

theorem natStrAux_eq (fuel : Nat) :
    ∀ n ≤ fuel, natStrAux fuel n = (Nat.digits 10 n).reverse.map Nat.digitChar := by
  induction fuel with
  | zero =>
    intro n hn
    obtain rfl : n = 0 := Nat.le_zero.mp hn
    simp [natStrAux]
  | succ fuel ih =>
    intro n hn
    unfold natStrAux
    split
    · next h =>
      subst h
      simp
    · next h =>
      have hdiv : n / 10 ≤ fuel := by omega
      rw [ih (n / 10) hdiv,
        Nat.digits_def' (by norm_num : (1 : Nat) < 10) (Nat.pos_of_ne_zero h)]
      simp

theorem natStr_eq_digits (n : Nat) :
    natStr n = if n = 0 then ['0'] else (Nat.digits 10 n).reverse.map Nat.digitChar := by
  unfold natStr
  split
  · rfl
  · rw [natStrAux_eq n n le_rfl]

theorem natStr_ne_nil (n : Nat) : natStr n ≠ [] := by
  rw [natStr_eq_digits]
  split
  · simp
  · next h =>
    simp [Nat.digits_ne_nil_iff_ne_zero, h]

theorem natStr_all_digit {n : Nat} : ∀ c ∈ natStr n, c.isDigit = true := by
  intro c hc
  rw [natStr_eq_digits] at hc
  split at hc
  · simp at hc
    subst hc
    decide
  · simp only [List.mem_map, List.mem_reverse] at hc
    obtain ⟨d, hd, rfl⟩ := hc
    exact digitChar_isDigit (Nat.digits_lt_base (by norm_num) hd)

theorem digitsVal_rev_map (l : List Nat) (h : ∀ d ∈ l, d < 10) :
    digitsVal (l.reverse.map Nat.digitChar) = Nat.ofDigits 10 l := by
  induction l with
  | nil => simp [digitsVal, Nat.ofDigits_nil]
  | cons d t ih =>
    have hd : d < 10 := h d (by simp)
    have ht : ∀ x ∈ t, x < 10 := fun x hx => h x (by simp [hx])
    rw [List.reverse_cons, List.map_append, digitsVal_append, ih ht, Nat.ofDigits_cons]
    have hv : digitsVal [Nat.digitChar d] = d := by
      simp [digitsVal, digitChar_val hd]
    simp only [List.map_cons, List.map_nil, List.length_cons, List.length_nil, hv]
    push_cast [Nat.ofDigits_cons]
    ring

theorem digitsVal_natStr (n : Nat) : digitsVal (natStr n) = n := by
  rw [natStr_eq_digits]
  split
  · next h =>
    subst h
    decide
  · rw [digitsVal_rev_map _ (fun d hd => Nat.digits_lt_base (by norm_num) hd),
      Nat.ofDigits_digits]

theorem natStr_length_le {n j : Nat} (hj : 1 ≤ j) (h : n < 10 ^ j) :
    (natStr n).length ≤ j := by
  rw [natStr_eq_digits]
  split
  · simpa using hj
  · next h0 =>
    simp only [List.length_map, List.length_reverse]
    rw [Nat.digits_len 10 n (by norm_num) h0]
    have : Nat.log 10 n < j := Nat.log_lt_of_lt_pow h0 h
    omega

theorem digitsVal_padLeft (j : Nat) (s : List Char) :
    digitsVal (padLeft j s) = digitsVal s := by
  unfold padLeft
  rw [digitsVal_append]
  have hz : ∀ k, digitsVal (List.replicate k '0') = 0 := by
    intro k
    induction k with
    | zero => rfl
    | succ k ih =>
      have : digitsVal ('0' :: List.replicate k '0') = digitsVal (List.replicate k '0') := by
        unfold digitsVal
        simp
      simpa [this] using ih
  simp [hz]

theorem padLeft_length {j : Nat} {s : List Char} (h : s.length ≤ j) :
    (padLeft j s).length = j := by
  simp [padLeft]
  omega

theorem padLeft_all_digit {j : Nat} {s : List Char} (h : ∀ c ∈ s, c.isDigit = true) :
    ∀ c ∈ padLeft j s, c.isDigit = true := by
  intro c hc
  simp only [padLeft, List.mem_append, List.mem_replicate] at hc
  rcases hc with ⟨-, rfl⟩ | hc
  · decide
  · exact h c hc

/-! ## Utility lemmas: `takeWhile` / `dropWhile` / trim / split / join -/

theorem takeWhile_append_all {p : Char → Bool} {l : List Char} (r : List Char)
    (h : ∀ c ∈ l, p c = true) :
    (l ++ r).takeWhile p = l ++ r.takeWhile p := by
  induction l with
  | nil => simp
  | cons c t ih =>
    have hc : p c = true := h c (by simp)
    simp only [List.cons_append, List.takeWhile_cons, hc, if_true]
    rw [ih fun x hx => h x (by simp [hx])]

theorem dropWhile_append_all {p : Char → Bool} {l : List Char} (r : List Char)
    (h : ∀ c ∈ l, p c = true) :
    (l ++ r).dropWhile p = r.dropWhile p := by
  induction l with
  | nil => simp
  | cons c t ih =>
    have hc : p c = true := h c (by simp)
    simp only [List.cons_append, List.dropWhile_cons, hc, if_true]
    exact ih fun x hx => h x (by simp [hx])

theorem takeWhile_eq_self_of_all {p : Char → Bool} {l : List Char}
    (h : ∀ c ∈ l, p c = true) : l.takeWhile p = l := by
  have := @takeWhile_append_all p l [] h
  simpa using this

theorem dropWhile_eq_nil_of_all {p : Char → Bool} {l : List Char}
    (h : ∀ c ∈ l, p c = true) : l.dropWhile p = [] := by
  have := @dropWhile_append_all p l [] h
  simpa using this

theorem takeWhile_eq_nil_of_head {p : Char → Bool} {l : List Char} {c : Char}
    (h : l.head? = some c) (hc : p c = false) : l.takeWhile p = [] := by
  cases l with
  | nil => simp at h
  | cons a t =>
    simp only [List.head?_cons, Option.some.injEq] at h
    subst h
    simp [List.takeWhile_cons, hc]

theorem dropWhile_eq_self_of_head {p : Char → Bool} {l : List Char} {c : Char}
    (h : l.head? = some c) (hc : p c = false) : l.dropWhile p = l := by
  cases l with
  | nil => simp at h
  | cons a t =>
    simp only [List.head?_cons, Option.some.injEq] at h
    subst h
    simp [List.dropWhile_cons, hc]

theorem dropWhile_eq_self_of_all_false {p : Char → Bool} {l : List Char}
    (h : ∀ c ∈ l, p c = false) : l.dropWhile p = l := by
  cases l with
  | nil => simp
  | cons a t => exact dropWhile_eq_self_of_head (by simp) (h a (by simp))

theorem jsTrim_eq_self {l : List Char} (h : ∀ c ∈ l, wsChar c = false) :
    jsTrim l = l := by
  unfold jsTrim
  rw [dropWhile_eq_self_of_all_false h,
    dropWhile_eq_self_of_all_false (fun c hc => h c (List.mem_reverse.mp hc)),
    List.reverse_reverse]

theorem jsTrim_eq_self_of_ends {l : List Char} {a b : Char}
    (h1 : l.head? = some a) (ha : wsChar a = false)
    (h2 : l.getLast? = some b) (hb : wsChar b = false) : jsTrim l = l := by
  unfold jsTrim
  rw [dropWhile_eq_self_of_head h1 ha,
    dropWhile_eq_self_of_head (by rw [List.head?_reverse]; exact h2) hb,
    List.reverse_reverse]

theorem consHead_cons (c : Char) (l : List Char) (ls : List (List Char)) :
    consHead c (l :: ls) = (c :: l) :: ls := rfl

theorem consHead_ne_nil (c : Char) (ls : List (List Char)) : consHead c ls ≠ [] := by
  cases ls <;> simp [consHead]

theorem splitOnComma_cons (c : Char) (rest : List Char) :
    splitOnComma (c :: rest) =
      if c = ',' then [] :: splitOnComma rest else consHead c (splitOnComma rest) := rfl

theorem splitOnComma_ne_nil (l : List Char) : splitOnComma l ≠ [] := by
  cases l with
  | nil => simp [splitOnComma]
  | cons c t =>
    rw [splitOnComma_cons]
    split
    · simp
    · exact consHead_ne_nil _ _

theorem splitOnComma_no_comma {l : List Char} (h : ∀ c ∈ l, c ≠ ',') :
    splitOnComma l = [l] := by
  induction l with
  | nil => rfl
  | cons c t ih =>
    rw [splitOnComma_cons, if_neg (h c (by simp)), ih fun x hx => h x (by simp [hx]),
      consHead_cons]

theorem splitOnComma_append {a : List Char} (b : List Char) (h : ∀ c ∈ a, c ≠ ',') :
    splitOnComma (a ++ ',' :: b) = a :: splitOnComma b := by
  induction a with
  | nil =>
    rw [List.nil_append, splitOnComma_cons, if_pos rfl]
  | cons c t ih =>
    rw [List.cons_append, splitOnComma_cons, if_neg (h c (by simp)),
      ih fun x hx => h x (by simp [hx]), consHead_cons]

theorem splitLines_ne_nil (l : List Char) : splitLines l ≠ [] := by
  cases l with
  | nil => simp [splitLines]
  | cons c t =>
    cases t with
    | nil =>
      show (if c = '\n' then [[], []] else [[c]]) ≠ []
      split <;> simp
    | cons d r =>
      show (if c = '\n' then [] :: splitLines (d :: r)
        else if c = '\r' then
          if d = '\n' then [] :: splitLines r
          else consHead c (splitLines (d :: r))
        else consHead c (splitLines (d :: r))) ≠ []
      split
      · simp
      · split
        · split
          · simp
          · exact consHead_ne_nil _ _
        · exact consHead_ne_nil _ _

theorem splitLines_no_nl {l : List Char} (h : ∀ c ∈ l, c ≠ '\n' ∧ c ≠ '\r') :
    splitLines l = [l] := by
  induction l with
  | nil => rfl
  | cons c t ih =>
    cases t with
    | nil =>
      show (if c = '\n' then [[], []] else [[c]]) = [[c]]
      rw [if_neg (h c (by simp)).1]
    | cons d r =>
      show (if c = '\n' then [] :: splitLines (d :: r)
        else if c = '\r' then
          if d = '\n' then [] :: splitLines r
          else consHead c (splitLines (d :: r))
        else consHead c (splitLines (d :: r))) = [c :: d :: r]
      rw [if_neg (h c (by simp)).1, if_neg (h c (by simp)).2,
        ih fun x hx => h x (by simp [hx]), consHead_cons]

theorem splitLines_append {a : List Char} (b : List Char)
    (h : ∀ c ∈ a, c ≠ '\n' ∧ c ≠ '\r') :
    splitLines (a ++ '\n' :: b) = a :: splitLines b := by
  induction a with
  | nil =>
    cases b with
    | nil => rfl
    | cons x r =>
      show (if '\n' = '\n' then [] :: splitLines (x :: r)
        else if '\n' = '\r' then
          if x = '\n' then [] :: splitLines r
          else consHead '\n' (splitLines (x :: r))
        else consHead '\n' (splitLines (x :: r))) = [] :: splitLines (x :: r)
      rw [if_pos rfl]
  | cons c t ih =>
    have htail : splitLines (t ++ '\n' :: b) = t :: splitLines b :=
      ih fun x hx => h x (by simp [hx])
    cases t with
    | nil =>
      show (if c = '\n' then [] :: splitLines ('\n' :: b)
        else if c = '\r' then
          if '\n' = '\n' then [] :: splitLines b
          else consHead c (splitLines ('\n' :: b))
        else consHead c (splitLines ('\n' :: b))) = [c] :: splitLines b
      rw [if_neg (h c (by simp)).1, if_neg (h c (by simp)).2]
      simp only [List.nil_append] at htail
      rw [htail, consHead_cons]
    | cons e t2 =>
      show (if c = '\n' then [] :: splitLines (e :: (t2 ++ '\n' :: b))
        else if c = '\r' then
          if e = '\n' then [] :: splitLines (t2 ++ '\n' :: b)
          else consHead c (splitLines (e :: (t2 ++ '\n' :: b)))
        else consHead c (splitLines (e :: (t2 ++ '\n' :: b)))) =
        (c :: e :: t2) :: splitLines b
      rw [if_neg (h c (by simp)).1, if_neg (h c (by simp)).2]
      have : splitLines (e :: (t2 ++ '\n' :: b)) = (e :: t2) :: splitLines b := htail
      rw [this, consHead_cons]

theorem splitLines_joinNL {ls : List (List Char)} (hne : ls ≠ [])
    (h : ∀ l ∈ ls, ∀ c ∈ l, c ≠ '\n' ∧ c ≠ '\r') :
    splitLines (joinNL ls) = ls := by
  induction ls with
  | nil => exact absurd rfl hne
  | cons l t ih =>
    cases t with
    | nil => exact splitLines_no_nl (h l (by simp))
    | cons l2 t2 =>
      show splitLines (l ++ '\n' :: joinNL (l2 :: t2)) = _
      rw [splitLines_append _ (h l (by simp)),
        ih (by simp) fun x hx => h x (by simp [hx])]

/-! ## Number rendering: character classes and the print/parse round trip -/

theorem isDigit_ne {c : Char} (h : c.isDigit = true) (d : Char) (hd : d.isDigit = false) :
    c ≠ d := by
  intro e
  subst e
  rw [h] at hd
  cases hd

theorem isDigit_not_ws {c : Char} (h : c.isDigit = true) : wsChar c = false := by
  unfold wsChar
  simp [isDigit_ne h ' ' (by decide), isDigit_ne h '\t' (by decide),
    isDigit_ne h '\n' (by decide), isDigit_ne h '\r' (by decide)]

theorem absQ_eq_abs (q : ℚ) : absQ q = |q| := by
  unfold absQ
  split
  · next h => exact (abs_of_neg h).symm
  · next h => exact (abs_of_nonneg (not_lt.mp h)).symm

theorem renderDec_all_chars (m j : Nat) :
    ∀ c ∈ renderDec m j, c.isDigit = true ∨ c = '.' := by
  intro c hc
  unfold renderDec at hc
  split at hc
  · exact Or.inl (natStr_all_digit c hc)
  · rw [List.mem_append] at hc
    rcases hc with hc | hc
    · exact Or.inl (natStr_all_digit c hc)
    · rcases List.mem_cons.mp hc with rfl | hc
      · exact Or.inr rfl
      · exact Or.inl (padLeft_all_digit natStr_all_digit c hc)

theorem renderDec_char_not {m j : Nat} {c : Char} (hc : c ∈ renderDec m j) :
    wsChar c = false ∧ c ≠ ',' ∧ c ≠ '\n' ∧ c ≠ '\r' := by
  rcases renderDec_all_chars m j c hc with h | rfl
  · exact ⟨isDigit_not_ws h, isDigit_ne h ',' (by decide), isDigit_ne h '\n' (by decide),
      isDigit_ne h '\r' (by decide)⟩
  · exact ⟨by decide, by decide, by decide, by decide⟩

theorem renderDec_head_digit (m j : Nat) :
    ∃ d t, renderDec m j = d :: t ∧ d.isDigit = true := by
  unfold renderDec
  split
  · obtain ⟨d, t, h⟩ := List.exists_cons_of_ne_nil (natStr_ne_nil m)
    exact ⟨d, t, h, natStr_all_digit d (h ▸ List.mem_cons_self d t)⟩
  · obtain ⟨d, t, h⟩ := List.exists_cons_of_ne_nil (natStr_ne_nil (m / 10 ^ j))
    rw [h]
    exact ⟨d, _, rfl, natStr_all_digit d (h ▸ List.mem_cons_self d t)⟩

theorem renderDec_ne_nil (m j : Nat) : renderDec m j ≠ [] := by
  obtain ⟨d, t, h, -⟩ := renderDec_head_digit m j
  simp [h]

theorem renderDec_take2_ne (m j : Nat) {c2 : Char} (h2 : c2.isDigit = false)
    (h2d : c2 ≠ '.') : (renderDec m j).take 2 ≠ ['0', c2] := by
  intro h
  have hmem : c2 ∈ (renderDec m j).take 2 := by
    rw [h]
    simp
  rcases renderDec_all_chars m j c2 (List.mem_of_mem_take hmem) with hd | hdot
  · rw [hd] at h2
    cases h2
  · exact h2d hdot

theorem decExpAux_den {f : Nat} {q : ℚ} {j : Nat} (h : decExpAux f q = some j) :
    (q * 10 ^ j).den = 1 := by
  induction f generalizing q j with
  | zero => simp [decExpAux] at h
  | succ f ih =>
    unfold decExpAux at h
    split at h
    · next hden =>
      obtain rfl : (0 : Nat) = j := by simpa using h
      simpa using hden
    · obtain ⟨j2, hj2, rfl⟩ : ∃ j2, decExpAux f (q * 10) = some j2 ∧ j2 + 1 = j := by
        cases hh : decExpAux f (q * 10) with
        | none => rw [hh] at h; simp at h
        | some j2 => rw [hh] at h; simp at h; exact ⟨j2, rfl, h⟩
      have hd := ih hj2
      have : q * 10 ^ (j2 + 1) = q * 10 * 10 ^ j2 := by ring
      rw [this]
      exact hd

theorem digitsVal_nil : digitsVal [] = 0 := rfl

theorem parseDec_renderDec (m j : Nat) (hchk : ((m : ℚ) / 10 ^ j) < ((2 ^ 1024 : Nat) : ℚ)) :
    parseDec (renderDec m j) = some ((m : ℚ) / 10 ^ j) := by
  rcases Nat.eq_zero_or_pos j with rfl | hj
  · have hrd : renderDec m 0 = natStr m := by simp [renderDec]
    have h1 : (natStr m).takeWhile Char.isDigit = natStr m :=
      takeWhile_eq_self_of_all natStr_all_digit
    have h2 : (natStr m).dropWhile Char.isDigit = [] :=
      dropWhile_eq_nil_of_all natStr_all_digit
    have hm : (m : ℚ) < ((2 ^ 1024 : Nat) : ℚ) := by simpa using hchk
    rw [hrd]
    simp only [parseDec, h1, h2, List.head?_nil]
    simp [natStr_ne_nil, digitsVal_natStr, digitsVal_nil, jsChk, hm]
    exact_mod_cast hm
  · have hj1 : 1 ≤ j := hj
    have hmod : m % 10 ^ j < 10 ^ j := Nat.mod_lt _ (by positivity)
    have hlen : (natStr (m % 10 ^ j)).length ≤ j := natStr_length_le hj1 hmod
    have hrd : renderDec m j =
        natStr (m / 10 ^ j) ++ '.' :: padLeft j (natStr (m % 10 ^ j)) := by
      rw [renderDec, if_neg (by omega)]
    have h1 : (renderDec m j).takeWhile Char.isDigit = natStr (m / 10 ^ j) := by
      rw [hrd, takeWhile_append_all _ natStr_all_digit, List.takeWhile_cons]
      simp
    have h2 : (renderDec m j).dropWhile Char.isDigit =
        '.' :: padLeft j (natStr (m % 10 ^ j)) := by
      rw [hrd, dropWhile_append_all _ natStr_all_digit, List.dropWhile_cons]
      simp
    have hpad : ∀ c ∈ padLeft j (natStr (m % 10 ^ j)), c.isDigit = true :=
      padLeft_all_digit natStr_all_digit
    have h3 : (padLeft j (natStr (m % 10 ^ j))).takeWhile Char.isDigit =
        padLeft j (natStr (m % 10 ^ j)) := takeWhile_eq_self_of_all hpad
    have h4 : (padLeft j (natStr (m % 10 ^ j))).dropWhile Char.isDigit = [] :=
      dropWhile_eq_nil_of_all hpad
    have hplen : (padLeft j (natStr (m % 10 ^ j))).length = j := padLeft_length hlen
    have hmant : ((digitsVal (natStr (m / 10 ^ j)) : ℚ) +
        (digitsVal (padLeft j (natStr (m % 10 ^ j))) : ℚ) /
          10 ^ (padLeft j (natStr (m % 10 ^ j))).length) = (m : ℚ) / 10 ^ j := by
      rw [digitsVal_padLeft, digitsVal_natStr, digitsVal_natStr, hplen]
      have hpow : ((10 : ℚ) ^ j) ≠ 0 := by positivity
      rw [eq_div_iff hpow, add_mul, div_mul_cancel₀ _ hpow]
      have key : m / 10 ^ j * 10 ^ j + m % 10 ^ j = m := by
        have hdm := Nat.div_add_mod m (10 ^ j)
        rw [Nat.mul_comm (10 ^ j) (m / 10 ^ j)] at hdm
        exact hdm
      calc ((m / 10 ^ j : ℕ) : ℚ) * 10 ^ j + ((m % 10 ^ j : ℕ) : ℚ)
          = ((m / 10 ^ j * 10 ^ j + m % 10 ^ j : ℕ) : ℚ) := by push_cast; ring
        _ = (m : ℚ) := by rw [key]
    simp only [parseDec, h1, h2, List.head?_cons, List.drop_one, List.tail_cons, h3, h4]
    simp [natStr_ne_nil, hmant, jsChk, hchk]
    exact_mod_cast hchk

theorem jsDecSigned_renderDec (m j : Nat) (hchk : ((m : ℚ) / 10 ^ j) < ((2 ^ 1024 : Nat) : ℚ)) :
    jsDecSigned (renderDec m j) = some ((m : ℚ) / 10 ^ j) := by
  unfold jsDecSigned
  rw [if_neg, parseDec_renderDec m j hchk]
  intro h
  obtain ⟨d, t, he, hd⟩ := renderDec_head_digit m j
  rw [he] at h
  have hdi : d = 'I' := by
    have := congrArg List.head? h
    simpa using this
  subst hdi
  exact absurd hd (by decide)

theorem jsUnsigned_renderDec (m j : Nat) (hchk : ((m : ℚ) / 10 ^ j) < ((2 ^ 1024 : Nat) : ℚ)) :
    jsUnsigned (renderDec m j) = some ((m : ℚ) / 10 ^ j) := by
  unfold jsUnsigned
  rw [if_neg (not_or.mpr ⟨renderDec_take2_ne m j (by decide) (by decide),
      renderDec_take2_ne m j (by decide) (by decide)⟩),
    if_neg (not_or.mpr ⟨renderDec_take2_ne m j (by decide) (by decide),
      renderDec_take2_ne m j (by decide) (by decide)⟩),
    if_neg (not_or.mpr ⟨renderDec_take2_ne m j (by decide) (by decide),
      renderDec_take2_ne m j (by decide) (by decide)⟩),
    jsDecSigned_renderDec m j hchk]

theorem jsNumber_jsNumToString {q : ℚ} (hfin : jsFinite q) :
    jsNumber (jsNumToString q) = some q := by
  obtain ⟨hdec, hlt⟩ := hfin
  rw [absQ_eq_abs] at hdec hlt
  obtain ⟨j, hj⟩ := Option.isSome_iff_exists.mp hdec
  have hden : (|q| * 10 ^ j).den = 1 := decExpAux_den hj
  set m : Nat := (|q| * 10 ^ j).num.toNat with hm
  have hnum : (((|q| * 10 ^ j).num : ℤ) : ℚ) = |q| * 10 ^ j := (Rat.den_eq_one_iff _).mp hden
  have hnonneg : 0 ≤ (|q| * 10 ^ j).num :=
    Rat.num_nonneg.mpr (mul_nonneg (abs_nonneg q) (pow_nonneg (by norm_num) j))
  have hmz : ((m : ℕ) : ℤ) = (|q| * 10 ^ j).num := by
    rw [hm]
    exact Int.toNat_of_nonneg hnonneg
  have hmq : (m : ℚ) = |q| * 10 ^ j := by
    calc (m : ℚ) = (((m : ℕ) : ℤ) : ℚ) := by push_cast; ring
      _ = (((|q| * 10 ^ j).num : ℤ) : ℚ) := by rw [hmz]
      _ = |q| * 10 ^ j := hnum
  have hpow : ((10 : ℚ) ^ j) ≠ 0 := by positivity
  have habs : (m : ℚ) / 10 ^ j = |q| := by rw [hmq, mul_div_cancel_right₀ _ hpow]
  have hchk : ((m : ℚ) / 10 ^ j) < ((2 ^ 1024 : Nat) : ℚ) := by rw [habs]; exact hlt
  have hstr : jsNumToString q =
      (if q < 0 then '-' :: renderDec m j else renderDec m j) := by
    simp only [jsNumToString, absQ_eq_abs, hj, hm]
  obtain ⟨d, t, hdt, hd⟩ := renderDec_head_digit m j
  have hhead : (renderDec m j).head? = some d := by rw [hdt]; rfl
  rcases lt_or_le q 0 with hneg | hpos
  · have hqs : jsNumToString q = '-' :: renderDec m j := by rw [hstr, if_pos hneg]
    have htrim : jsTrim ('-' :: renderDec m j) = '-' :: renderDec m j := by
      apply jsTrim_eq_self
      intro c hc
      rcases List.mem_cons.mp hc with rfl | hc
      · decide
      · exact (renderDec_char_not hc).1
    rw [hqs]
    simp only [jsNumber, htrim]
    rw [if_neg (by simp), if_pos (by simp)]
    simp only [List.drop_one, List.tail_cons]
    rw [jsDecSigned_renderDec m j hchk, habs]
    simp [abs_of_neg hneg]
  · have hqs : jsNumToString q = renderDec m j := by rw [hstr, if_neg (not_lt.mpr hpos)]
    have htrim : jsTrim (renderDec m j) = renderDec m j :=
      jsTrim_eq_self fun c hc => (renderDec_char_not hc).1
    have hnm : ¬((renderDec m j).head? = some '-') := by
      rw [hhead]
      intro h
      rw [Option.some.injEq] at h
      subst h
      exact absurd hd (by decide)
    have hnp : ¬((renderDec m j).head? = some '+') := by
      rw [hhead]
      intro h
      rw [Option.some.injEq] at h
      subst h
      exact absurd hd (by decide)
    rw [hqs]
    simp only [jsNumber, htrim]
    rw [if_neg (renderDec_ne_nil m j), if_neg hnm, if_neg hnp,
      jsUnsigned_renderDec m j hchk, habs, abs_of_nonneg hpos]

/-! ## Sorting lemmas for the `parseCSV` comparator -/

theorem mem_insertEntry {a e : DoseEntry} {l : List DoseEntry} :
    a ∈ insertEntry e l ↔ a = e ∨ a ∈ l := by
  induction l with
  | nil => simp [insertEntry]
  | cons x xs ih =>
    unfold insertEntry
    split
    · simp
    · simp [ih]
      tauto

theorem mem_sortEntries {a : DoseEntry} {l : List DoseEntry} :
    a ∈ sortEntries l ↔ a ∈ l := by
  induction l with
  | nil => simp [sortEntries]
  | cons x xs ih =>
    show a ∈ insertEntry x (sortEntries xs) ↔ _
    rw [mem_insertEntry]
    simp [ih]

theorem jsLE_total (a b : DoseEntry) : jsLE a b = true ∨ jsLE b a = true := by
  unfold jsLE jsCompare
  cases tsMillis a <;> cases tsMillis b <;> simp <;> omega

theorem jsLE_trans_some {a b c : DoseEntry} {ma mb mc : Int}
    (ha : tsMillis a = some ma) (hb : tsMillis b = some mb) (hc : tsMillis c = some mc)
    (h1 : jsLE a b = true) (h2 : jsLE b c = true) : jsLE a c = true := by
  unfold jsLE jsCompare at *
  rw [ha, hb] at h1
  rw [hb, hc] at h2
  rw [ha, hc]
  simp at *
  omega

theorem pairwise_insertEntry {e : DoseEntry} {l : List DoseEntry}
    (hk : ∀ x ∈ e :: l, (tsMillis x).isSome)
    (hl : l.Pairwise (fun a b => jsLE a b = true)) :
    (insertEntry e l).Pairwise (fun a b => jsLE a b = true) := by
  induction l with
  | nil => simp [insertEntry]
  | cons x xs ih =>
    rw [List.pairwise_cons] at hl
    obtain ⟨hx, hxs⟩ := hl
    unfold insertEntry
    split
    · next hle =>
      refine List.Pairwise.cons ?_ (List.Pairwise.cons hx hxs)
      intro y hy
      rcases List.mem_cons.mp hy with rfl | hy
      · exact hle
      · obtain ⟨me, hme⟩ := Option.isSome_iff_exists.mp (hk e (by simp))
        obtain ⟨mx, hmx⟩ := Option.isSome_iff_exists.mp (hk x (by simp))
        obtain ⟨my, hmy⟩ := Option.isSome_iff_exists.mp (hk y (by simp [hy]))
        exact jsLE_trans_some hme hmx hmy hle (hx y hy)
    · next hle =>
      have hxe : jsLE x e = true := by
        rcases jsLE_total e x with h | h
        · exact absurd h hle
        · exact h
      refine List.Pairwise.cons ?_ (ih ?_ hxs)
      · intro y hy
        rcases mem_insertEntry.mp hy with rfl | hy
        · exact hxe
        · exact hx y hy
      · intro y hy
        rcases List.mem_cons.mp hy with rfl | hy
        · exact hk y (by simp)
        · exact hk y (by simp [hy])

theorem pairwise_sortEntries {l : List DoseEntry} (hk : ∀ x ∈ l, (tsMillis x).isSome) :
    (sortEntries l).Pairwise (fun a b => jsLE a b = true) := by
  induction l with
  | nil => simp [sortEntries]
  | cons x xs ih =>
    show (insertEntry x (sortEntries xs)).Pairwise _
    apply pairwise_insertEntry
    · intro y hy
      rcases List.mem_cons.mp hy with rfl | hy
      · exact hk y (by simp)
      · exact hk y (by simp [mem_sortEntries.mp hy])
    · exact ih fun y hy => hk y (by simp [hy])

theorem sortEntries_eq_self {l : List DoseEntry}
    (h : l.Pairwise (fun a b => jsLE a b = true)) : sortEntries l = l := by
  induction l with
  | nil => rfl
  | cons x xs ih =>
    rw [List.pairwise_cons] at h
    obtain ⟨hx, hxs⟩ := h
    show insertEntry x (sortEntries xs) = x :: xs
    rw [ih hxs]
    cases xs with
    | nil => rfl
    | cons y ys =>
      unfold insertEntry
      rw [if_pos (hx y (by simp))]

/-! ## ISO timestamp character facts -/

theorem isoMillis_all_isoChar {s : List Char} {v : Int} (h : isoMillis s = some v) :
    ∀ c ∈ s, isoChar c = true := by
  unfold isoMillis at h
  split at h
  · next hall => exact fun c hc => List.all_eq_true.mp hall c hc
  · cases h

theorem isoChar_not {c : Char} (h : isoChar c = true) :
    wsChar c = false ∧ c ≠ ',' ∧ c ≠ '\n' ∧ c ≠ '\r' := by
  simp only [isoChar, Bool.or_eq_true, decide_eq_true_eq] at h
  rcases h with ((((hd | rfl) | rfl) | rfl) | rfl) | rfl
  · exact ⟨isDigit_not_ws hd, isDigit_ne hd ',' (by decide), isDigit_ne hd '\n' (by decide),
      isDigit_ne hd '\r' (by decide)⟩
  · exact ⟨by decide, by decide, by decide, by decide⟩
  · exact ⟨by decide, by decide, by decide, by decide⟩
  · exact ⟨by decide, by decide, by decide, by decide⟩
  · exact ⟨by decide, by decide, by decide, by decide⟩
  · exact ⟨by decide, by decide, by decide, by decide⟩

theorem isoMillis_ne_nil {s : List Char} {v : Int} (h : isoMillis s = some v) : s ≠ [] := by
  intro he
  subst he
  rw [show isoMillis [] = none from rfl] at h
  cases h

/-! ## `parseLine` on an encoded line -/

theorem jsNumToString_char_not {q : ℚ} {c : Char} (hc : c ∈ jsNumToString q) :
    wsChar c = false ∧ c ≠ ',' ∧ c ≠ '\n' ∧ c ≠ '\r' := by
  by_cases hq : q < 0
  · simp only [jsNumToString, absQ_eq_abs, if_pos hq] at hc
    rcases List.mem_cons.mp hc with rfl | hc
    · exact ⟨by decide, by decide, by decide, by decide⟩
    · cases hdec : decExp |q| with
      | some j =>
        rw [hdec] at hc
        exact renderDec_char_not hc
      | none =>
        rw [hdec] at hc
        simp at hc
        subst hc
        exact ⟨by decide, by decide, by decide, by decide⟩
  · simp only [jsNumToString, absQ_eq_abs, if_neg hq] at hc
    cases hdec : decExp |q| with
    | some j =>
      rw [hdec] at hc
      exact renderDec_char_not hc
    | none =>
      rw [hdec] at hc
      simp at hc
      subst hc
      exact ⟨by decide, by decide, by decide, by decide⟩

theorem jsNumToString_ne_nil (q : ℚ) : jsNumToString q ≠ [] := by
  by_cases hq : q < 0
  · simp [jsNumToString, if_pos hq]
  · simp only [jsNumToString, absQ_eq_abs, if_neg hq]
    cases hdec : decExp |q| with
    | some j => simp [renderDec_ne_nil]
    | none => simp

theorem parseLine_encode {ts : List Char} {q : ℚ}
    (hts : ∀ c ∈ ts, isoChar c = true) (hne : ts ≠ []) (hfin : jsFinite q) :
    parseLine (ts ++ ',' :: jsNumToString q) = some ⟨ts, q⟩ := by
  have hcomma : ∀ c ∈ ts, c ≠ ',' := fun c hc => (isoChar_not (hts c hc)).2.1
  have hncomma : ∀ c ∈ jsNumToString q, c ≠ ',' := fun c hc =>
    (jsNumToString_char_not hc).2.1
  have hsplit : splitOnComma (ts ++ ',' :: jsNumToString q) =
      ts :: [jsNumToString q] := by
    rw [splitOnComma_append _ hcomma, splitOnComma_no_comma hncomma]
  unfold parseLine
  rw [hsplit]
  show (if ts = [] ∨ jsNumToString q = [] then (none : Option DoseEntry)
    else match jsNumber (jsNumToString q) with
      | some q2 => some (⟨jsTrim ts, q2⟩ : DoseEntry)
      | none => none) = some ⟨ts, q⟩
  rw [if_neg (by simp [hne, jsNumToString_ne_nil q]), jsNumber_jsNumToString hfin,
    jsTrim_eq_self fun c hc => (isoChar_not (hts c hc)).1]

/-! ## `parseCSV` of encoded text -/

theorem joinNL_ne_nil {ls : List (List Char)} (hne : ls ≠ []) (h : ∀ l ∈ ls, l ≠ []) :
    joinNL ls ≠ [] := by
  cases ls with
  | nil => exact absurd rfl hne
  | cons l t =>
    cases t with
    | nil => exact h l (by simp)
    | cons l2 t2 =>
      show l ++ '\n' :: joinNL (l2 :: t2) ≠ []
      simp

theorem joinNL_head? {ls : List (List Char)} {l0 : List Char} (hl : ls.head? = some l0)
    (h0 : l0 ≠ []) : (joinNL ls).head? = l0.head? := by
  cases ls with
  | nil => cases hl
  | cons l t =>
    obtain rfl : l = l0 := by simpa using hl
    cases t with
    | nil => rfl
    | cons l2 t2 =>
      show (l ++ '\n' :: joinNL (l2 :: t2)).head? = _
      rw [List.head?_append]
      cases l with
      | nil => exact absurd rfl h0
      | cons c cs => rfl

theorem joinNL_getLast?_mem {ls : List (List Char)} (hne : ls ≠ []) (h : ∀ l ∈ ls, l ≠ []) :
    ∃ l ∈ ls, (joinNL ls).getLast? = l.getLast? := by
  induction ls with
  | nil => exact absurd rfl hne
  | cons l t ih =>
    cases t with
    | nil => exact ⟨l, by simp, rfl⟩
    | cons l2 t2 =>
      obtain ⟨l3, hmem, heq⟩ := ih (by simp) fun x hx => h x (by simp [hx])
      refine ⟨l3, by simp [hmem], ?_⟩
      show (l ++ '\n' :: joinNL (l2 :: t2)).getLast? = _
      rw [List.getLast?_append]
      have hjoin_ne : joinNL (l2 :: t2) ≠ [] :=
        joinNL_ne_nil (by simp) fun x hx => h x (by simp [hx])
      have hcons : ('\n' :: joinNL (l2 :: t2)).getLast? = (joinNL (l2 :: t2)).getLast? := by
        cases hj : joinNL (l2 :: t2) with
        | nil => exact absurd hj hjoin_ne
        | cons a b => exact List.getLast?_cons_cons
      rw [hcons, heq]
      have hl3 : l3 ≠ [] := h l3 (by simp [hmem])
      cases hgl : l3.getLast? with
      | none => exact absurd (List.getLast?_eq_none_iff.mp hgl) hl3
      | some a => rfl

theorem encode_line_chars {r : List DoseEntry}
    (h : ∀ e ∈ r, (isoMillis e.tsISO).isSome) :
    ∀ l ∈ CSV_HEADER :: r.map (fun e => e.tsISO ++ ',' :: jsNumToString e.amount),
      ∀ c ∈ l, wsChar c = false := by
  intro l hl c hc
  rcases List.mem_cons.mp hl with rfl | hl
  · exact (by decide : ∀ c ∈ CSV_HEADER, wsChar c = false) c hc
  · obtain ⟨e, he, rfl⟩ := List.mem_map.mp hl
    rw [List.mem_append] at hc
    rcases hc with hc | hc
    · obtain ⟨v, hv⟩ := Option.isSome_iff_exists.mp (h e he)
      exact (isoChar_not (isoMillis_all_isoChar hv c hc)).1
    · rcases List.mem_cons.mp hc with rfl | hc
      · decide
      · exact (jsNumToString_char_not hc).1

theorem entriesToCSV_head? (r : List DoseEntry) :
    (entriesToCSV r).head? = some 't' := by
  have hh : (joinNL (CSV_HEADER :: r.map
      (fun e => e.tsISO ++ ',' :: jsNumToString e.amount))).head? = CSV_HEADER.head? :=
    joinNL_head? rfl (by decide)
  unfold entriesToCSV
  rw [hh]
  rfl

theorem filterMap_parseLine_map {r : List DoseEntry}
    (h : ∀ e ∈ r, (isoMillis e.tsISO).isSome ∧ jsFinite e.amount) :
    (r.map (fun e => e.tsISO ++ ',' :: jsNumToString e.amount)).filterMap parseLine = r := by
  induction r with
  | nil => rfl
  | cons e t ih =>
    obtain ⟨v, hv⟩ := Option.isSome_iff_exists.mp (h e (by simp)).1
    have hline : parseLine (e.tsISO ++ ',' :: jsNumToString e.amount) = some e :=
      parseLine_encode (isoMillis_all_isoChar hv) (isoMillis_ne_nil hv) (h e (by simp)).2
    rw [List.map_cons, List.filterMap_cons, hline, ih fun x hx => h x (by simp [hx])]

theorem parseCSV_entriesToCSV (r : List DoseEntry)
    (h : ∀ e ∈ r, (isoMillis e.tsISO).isSome ∧ jsFinite e.amount) :
    parseCSV (entriesToCSV r) = sortEntries r := by
  have hchars : ∀ l ∈ CSV_HEADER :: r.map (fun e => e.tsISO ++ ',' :: jsNumToString e.amount),
      ∀ c ∈ l, wsChar c = false := encode_line_chars fun e he => (h e he).1
  have hnonil : ∀ l ∈ CSV_HEADER :: r.map (fun e => e.tsISO ++ ',' :: jsNumToString e.amount),
      l ≠ [] := by
    intro l hl
    rcases List.mem_cons.mp hl with rfl | hl
    · decide
    · obtain ⟨e, he, rfl⟩ := List.mem_map.mp hl
      simp
  have hnonl : ∀ l ∈ CSV_HEADER :: r.map (fun e => e.tsISO ++ ',' :: jsNumToString e.amount),
      ∀ c ∈ l, c ≠ '\n' ∧ c ≠ '\r' := by
    intro l hl c hc
    have hw := hchars l hl c hc
    constructor <;> (intro he; subst he; simp [wsChar] at hw)
  have hcsv : entriesToCSV r =
      joinNL (CSV_HEADER :: r.map (fun e => e.tsISO ++ ',' :: jsNumToString e.amount)) := rfl
  have htrim : jsTrim (entriesToCSV r) = entriesToCSV r := by
    obtain ⟨l, hlmem, hlast⟩ := joinNL_getLast?_mem (by simp) hnonil
    obtain ⟨b, hb⟩ : ∃ b, l.getLast? = some b := by
      cases hgl : l.getLast? with
      | none => exact absurd (List.getLast?_eq_none_iff.mp hgl) (hnonil l hlmem)
      | some a => exact ⟨a, rfl⟩
    apply jsTrim_eq_self_of_ends (entriesToCSV_head? r) (by decide)
    · rw [hcsv, hlast, hb]
    · exact hchars l hlmem b (List.mem_of_getLast?_eq_some hb)
  unfold parseCSV
  rw [htrim, hcsv, splitLines_joinNL (by simp) hnonl,
    List.filter_eq_self.mpr (by
      intro l hl
      cases hll : l with
      | nil => exact absurd hll (hnonil l hl)
      | cons a b => simp)]
  show sortEntries ((if ("timestamp,".data).isPrefixOf (jsToLower CSV_HEADER) then
      r.map (fun e => e.tsISO ++ ',' :: jsNumToString e.amount)
    else CSV_HEADER :: r.map (fun e => e.tsISO ++ ',' :: jsNumToString e.amount)).filterMap
      parseLine) = sortEntries r
  rw [if_pos (by decide), filterMap_parseLine_map h]

/-- C1: for every non-empty list of dose records, sorted descending by
parsed timestamp (pairwise non-positive comparator value), with parseable
ISO timestamps free of surrounding whitespace and finite amounts,
decoding the encoded text yields the list unchanged:
`parseCSV (entriesToCSV r) = r`. -/
theorem parseCSV_entriesToCSV_roundTrip (r : List DoseEntry) (hne : r ≠ [])
    (hparse : ∀ e ∈ r, (isoMillis e.tsISO).isSome)
    (hTsTrim : ∀ e ∈ r, jsTrim e.tsISO = e.tsISO)
    (hfin : ∀ e ∈ r, jsFinite e.amount)
    (hsort : r.Pairwise (fun a b => jsLE a b = true)) :
    parseCSV (entriesToCSV r) = r := by
  rw [parseCSV_entriesToCSV r fun e he => ⟨hparse e he, hfin e he⟩,
    sortEntries_eq_self hsort]

/-- Witness for C1 at the spec's own example log. -/
theorem parseCSV_entriesToCSV_roundTrip_witness :
    parseCSV (entriesToCSV [⟨"2024-03-02T14:05:00+01:00".data, 1⟩,
      ⟨"2024-03-02T10:30:00+01:00".data, 1 / 2⟩]) =
      [⟨"2024-03-02T14:05:00+01:00".data, 1⟩,
        ⟨"2024-03-02T10:30:00+01:00".data, 1 / 2⟩] :=
  parseCSV_entriesToCSV_roundTrip _ (by decide) (by decide) (by decide) (by decide)
    (by decide)

/-! ## Claim theorems -/

/-- C2: for a present, valid elapsed duration, `isWarning` is `true`
exactly when the elapsed time in minutes is strictly below the
90-minute threshold; 89 minutes warns, exactly 90 minutes does not, and
an absent elapsed (no prior dose) never warns. -/
theorem isWarning_iff_lt_90min :
    (∀ ms : Int, isWarning (some (some ms)) = true ↔
      (ms : ℚ) / 60000 < RED_THRESHOLD_MIN) ∧
    isWarning (some (some (89 * 60000))) = true ∧
    isWarning (some (some (90 * 60000))) = false ∧
    isWarning none = false := by
  refine ⟨fun ms => ?_, by decide, by decide, rfl⟩
  simp [isWarning]

/-- C4 counterexample: with the current instant at epoch 0 and a single
record timestamped in 2024 (clock skew: stored timestamp in the future),
`elapsed` is a present, strictly negative duration — the code does not
clamp it to zero, contradicting the claim. -/
theorem elapsed_negative_counterexample :
    elapsed 0 [⟨"2024-03-02T14:05:00+01:00".data, 1⟩] =
      some (some (-1709384700000)) ∧ (-1709384700000 : Int) < 0 := by
  constructor
  · decide
  · decide

/-- C4 (amended): `elapsed` is absent exactly when the log is empty;
otherwise it is the signed difference from the newest record's parsed
timestamp to the current instant, with no clamping of negative values. -/
theorem elapsed_none_iff_nil (now : Int) (entries : List DoseEntry) :
    (elapsed now entries = none ↔ entries = []) ∧
    (∀ e rest m, entries = e :: rest → isoMillis e.tsISO = some m →
      elapsed now entries = some (some (now - m))) := by
  constructor
  · cases entries with
    | nil => simp [elapsed, lastDoseDT]
    | cons e t => simp [elapsed, lastDoseDT]
  · intro e rest m hent hm
    subst hent
    simp [elapsed, lastDoseDT, hm]

/-- Witness for the amended C4 at a concrete log and instant. -/
theorem elapsed_none_iff_nil_witness :
    elapsed 1709384700000 [⟨"2024-03-02T14:05:00+01:00".data, 1⟩] = some (some 0) := by
  have h := (elapsed_none_iff_nil 1709384700000
    [⟨"2024-03-02T14:05:00+01:00".data, 1⟩]).2
    ⟨"2024-03-02T14:05:00+01:00".data, 1⟩ [] 1709384700000 rfl (by decide)
  simpa using h

/-- C9: a data line whose amount field is non-finite under `Number` is
silently dropped; a line with both fields present and a finite amount is
kept (with the timestamp field trimmed); whitespace-only input decodes
to the empty log; and on the spec's example, the `abc` line is dropped
while the well-formed line is kept. -/
theorem parseCSV_drops_nonfinite :
    (∀ line ts amt rest, splitOnComma line = ts :: amt :: rest →
      jsNumber amt = none → parseLine line = none) ∧
    (∀ line ts amt rest q, splitOnComma line = ts :: amt :: rest → ts ≠ [] → amt ≠ [] →
      jsNumber amt = some q → parseLine line = some ⟨jsTrim ts, q⟩) ∧
    (∀ csv, jsTrim csv = [] → parseCSV csv = []) ∧
    parseCSV "2024-01-01T10:00:00+01:00,abc\n2024-03-02T14:05:00+01:00,1.5".data =
      [⟨"2024-03-02T14:05:00+01:00".data, 3 / 2⟩] := by
  refine ⟨?_, ?_, ?_, by decide⟩
  · intro line ts amt rest hsplit hnum
    unfold parseLine
    rw [hsplit]
    show (if ts = [] ∨ amt = [] then (none : Option DoseEntry)
      else match jsNumber amt with
        | some q2 => some (⟨jsTrim ts, q2⟩ : DoseEntry)
        | none => none) = none
    split
    · rfl
    · rw [hnum]
  · intro line ts amt rest q hsplit hts hamt hnum
    unfold parseLine
    rw [hsplit]
    show (if ts = [] ∨ amt = [] then (none : Option DoseEntry)
      else match jsNumber amt with
        | some q2 => some (⟨jsTrim ts, q2⟩ : DoseEntry)
        | none => none) = some ⟨jsTrim ts, q⟩
    rw [if_neg (by simp [hts, hamt]), hnum]
  · intro csv htr
    unfold parseCSV
    rw [htr]
    rfl

/-- Witness for C9: keeping a well-formed line. -/
theorem parseCSV_drops_nonfinite_witness :
    parseLine "2024-01-01T10:00:00+01:00,2.5".data =
      some ⟨"2024-01-01T10:00:00+01:00".data, 5 / 2⟩ :=
  (parseCSV_drops_nonfinite.2.1 "2024-01-01T10:00:00+01:00,2.5".data
    "2024-01-01T10:00:00+01:00".data "2.5".data [] ((5 : ℚ) / 2) (by decide) (by decide)
    (by decide) (by decide)).trans (by decide)

/-- C10: decoding is total — in this embedding every operation `parseCSV`
performs is a total function, so `loadEntries` never takes the
catch-and-reset branch: a missing key gives the empty log, and any stored
string (the falsy empty string included) decodes exactly to
`parseCSV csv`. -/
theorem loadEntries_total :
    loadEntries none = [] ∧ (∀ csv, loadEntries (some csv) = parseCSV csv) := by
  refine ⟨rfl, fun csv => ?_⟩
  show (if csv = [] then [] else parseCSV csv) = parseCSV csv
  split
  · next h =>
    subst h
    rfl
  · rfl

/-- C3: for adjacent records `i`, `i+1` with parseable timestamps in
descending order, `intervalSincePrev` renders the non-negative duration
as `<H>h <M>m` with whole hours and a minute component below 60, and the
last history item renders as a dash. -/
theorem intervalSincePrev_spec (entries : List DoseEntry) (i : Nat)
    (curr prev : DoseEntry) (mc mp : Int)
    (hc : entries[i]? = some curr) (hp : entries[i + 1]? = some prev)
    (hmc : isoMillis curr.tsISO = some mc) (hmp : isoMillis prev.tsISO = some mp)
    (hle : mp ≤ mc) :
    (intervalSincePrev entries i =
      some (intStr ((mc - mp) / 3600000) ++ 'h' :: ' ' ::
        intStr ((mc - mp) % 3600000 / 60000) ++ ['m'])) ∧
    0 ≤ (mc - mp) / 3600000 ∧
    0 ≤ (mc - mp) % 3600000 / 60000 ∧ (mc - mp) % 3600000 / 60000 < 60 ∧
    (∀ es : List DoseEntry, es ≠ [] →
      intervalSincePrev es (es.length - 1) = some ['—']) := by
  have hlen : i + 1 < entries.length := (List.getElem?_eq_some_iff.mp hp).1
  have hguard : ¬((i : Int) = (entries.length : Int) - 1) := by
    intro he
    omega
  have hf1 : ⌊((mc - mp : Int) : ℚ) / 3600000⌋ = (mc - mp) / 3600000 := by
    rw [show (3600000 : ℚ) = ((3600000 : Nat) : ℚ) by norm_num,
      Rat.floor_intCast_div_natCast]
    norm_num
  have hsub : ((mc - mp : Int) : ℚ) - (((mc - mp) / 3600000 : Int) : ℚ) * 3600000 =
      (((mc - mp) % 3600000 : Int) : ℚ) := by
    have hz : (mc - mp) - (mc - mp) / 3600000 * 3600000 = (mc - mp) % 3600000 := by
      omega
    have hq := congrArg (fun z : Int => (z : ℚ)) hz
    push_cast at hq ⊢
    linarith [hq]
  have hf2 : ⌊(((mc - mp : Int) : ℚ) - (((mc - mp) / 3600000 : Int) : ℚ) * 3600000)
      / 60000⌋ = (mc - mp) % 3600000 / 60000 := by
    rw [hsub, show (60000 : ℚ) = ((60000 : Nat) : ℚ) by norm_num,
      Rat.floor_intCast_div_natCast]
    norm_num
  refine ⟨?_, by omega, by omega, by omega, ?_⟩
  · unfold intervalSincePrev
    rw [if_neg hguard, hc, hp]
    show (match isoMillis curr.tsISO, isoMillis prev.tsISO with
      | some mc2, some mp2 =>
        some (intStr ⌊((mc2 - mp2 : Int) : ℚ) / 3600000⌋ ++ 'h' :: ' ' ::
          intStr ⌊(((mc2 - mp2 : Int) : ℚ) -
            ((⌊((mc2 - mp2 : Int) : ℚ) / 3600000⌋ : Int) : ℚ) * 3600000) / 60000⌋ ++ ['m'])
      | _, _ => some ("NaNh NaNm".data)) = _
    rw [hmc, hmp]
    show some (intStr ⌊((mc - mp : Int) : ℚ) / 3600000⌋ ++ 'h' :: ' ' ::
      intStr ⌊(((mc - mp : Int) : ℚ) - ((⌊((mc - mp : Int) : ℚ) / 3600000⌋ : Int) : ℚ)
        * 3600000) / 60000⌋ ++ ['m']) = _
    rw [hf1, hf2]
  · intro es hes
    have hlen0 : 0 < es.length := List.length_pos.mpr hes
    unfold intervalSincePrev
    rw [if_pos (by omega : ((es.length - 1 : Nat) : Int) = (es.length : Int) - 1)]

/-- Witness for C3 at the spec's example instants (14:05 and 10:30 of the
same day give `3h 35m`; the oldest entry gives the dash). -/
theorem intervalSincePrev_spec_witness :
    intervalSincePrev [⟨"2024-03-02T14:05:00+01:00".data, 1⟩,
      ⟨"2024-03-02T10:30:00+01:00".data, 1 / 2⟩] 0 = some "3h 35m".data ∧
    intervalSincePrev [⟨"2024-03-02T14:05:00+01:00".data, 1⟩,
      ⟨"2024-03-02T10:30:00+01:00".data, 1 / 2⟩] 1 = some ['—'] := by
  constructor
  · exact ((intervalSincePrev_spec
      [⟨"2024-03-02T14:05:00+01:00".data, 1⟩, ⟨"2024-03-02T10:30:00+01:00".data, 1 / 2⟩]
      0 ⟨"2024-03-02T14:05:00+01:00".data, 1⟩ ⟨"2024-03-02T10:30:00+01:00".data, 1 / 2⟩
      1709384700000 1709371800000 (by decide) (by decide) (by decide) (by decide)
      (by decide)).1).trans (by decide)
  · exact (intervalSincePrev_spec
      [⟨"2024-03-02T14:05:00+01:00".data, 1⟩, ⟨"2024-03-02T10:30:00+01:00".data, 1 / 2⟩]
      0 ⟨"2024-03-02T14:05:00+01:00".data, 1⟩ ⟨"2024-03-02T10:30:00+01:00".data, 1 / 2⟩
      1709384700000 1709371800000 (by decide) (by decide) (by decide) (by decide)
      (by decide)).2.2.2.2 _ (by decide)

/-- C8: `formatElapsed` splits a non-negative duration into total whole
hours (not reduced modulo 24), minutes and seconds, each zero-padded to
two digits with the `pad` helper. -/
theorem formatElapsed_spec (h m s : Nat) (hm : m < 60) (hs : s < 60) :
    formatElapsed (some (((h * 3600 + m * 60 + s : Nat) : Int) * 1000)) =
      jsPad (h : Int) ++ ':' :: jsPad (m : Int) ++ ':' :: jsPad (s : Int) := by
  set ms : Int := ((h * 3600 + m * 60 + s : Nat) : Int) * 1000 with hms
  have hf1 : ⌊(ms : ℚ) / 3600000⌋ = (h : Int) := by
    rw [show (3600000 : ℚ) = ((3600000 : Nat) : ℚ) by norm_num,
      Rat.floor_intCast_div_natCast]
    omega
  have e1 : (ms : ℚ) - ((h : Int) : ℚ) * 3600000 =
      ((ms - (h : Int) * 3600000 : Int) : ℚ) := by
    push_cast
    ring
  have hf2 : ⌊((ms : ℚ) - ((h : Int) : ℚ) * 3600000) / 60000⌋ = (m : Int) := by
    rw [e1, show (60000 : ℚ) = ((60000 : Nat) : ℚ) by norm_num,
      Rat.floor_intCast_div_natCast]
    omega
  have e2 : (ms : ℚ) - ((h : Int) : ℚ) * 3600000 - ((m : Int) : ℚ) * 60000 =
      ((ms - (h : Int) * 3600000 - (m : Int) * 60000 : Int) : ℚ) := by
    push_cast
    ring
  have hf3 : ⌊((ms : ℚ) - ((h : Int) : ℚ) * 3600000 - ((m : Int) : ℚ) * 60000)
      / 1000⌋ = (s : Int) := by
    rw [e2, show (1000 : ℚ) = ((1000 : Nat) : ℚ) by norm_num,
      Rat.floor_intCast_div_natCast]
    omega
  show (let hh : Int := ⌊(ms : ℚ) / 3600000⌋
    let mm : Int := ⌊((ms : ℚ) - hh * 3600000) / 60000⌋
    let ss : Int := ⌊((ms : ℚ) - hh * 3600000 - mm * 60000) / 1000⌋
    jsPad hh ++ ':' :: jsPad mm ++ ':' :: jsPad ss) = _
  simp only [hf1, hf2, hf3]

/-- Witness for C8: 25 hours 3 minutes 9 seconds renders as `25:03:09`
(hours not wrapped at 24). -/
theorem formatElapsed_spec_witness :
    formatElapsed (some 90189000) = "25:03:09".data := by
  calc formatElapsed (some 90189000)
      = formatElapsed (some (((25 * 3600 + 3 * 60 + 9 : Nat) : Int) * 1000)) := by
        norm_num
    _ = jsPad (25 : Int) ++ ':' :: jsPad (3 : Int) ++ ':' :: jsPad (9 : Int) :=
        formatElapsed_spec 25 3 9 (by norm_num) (by norm_num)
    _ = "25:03:09".data := by decide

/-- `parseCSV` either yields the empty log or the sorted parse of some
list of rows. -/
theorem parseCSV_eq_cases (csv : List Char) :
    parseCSV csv = [] ∨
    ∃ rows : List (List Char), parseCSV csv = sortEntries (rows.filterMap parseLine) := by
  unfold parseCSV
  split
  · exact Or.inl rfl
  · exact Or.inr ⟨_, rfl⟩

/-- C5: the log stays sorted descending by parsed timestamp. The
comparator order `jsLE` coincides with descending millisecond order on
parseable entries; `parseCSV` output is pairwise sorted whenever its
entries parse; `addDose` prepends the new record and preserves
sortedness when the current instant is no earlier than every existing
record; and `deleteSingleDose` is a filter, so it preserves both the
relative order (sublist) and sortedness of the remaining records. -/
theorem doseLog_sorted_invariant :
    (∀ a b : DoseEntry, ∀ ma mb : Int, tsMillis a = some ma → tsMillis b = some mb →
      (jsLE a b = true ↔ mb ≤ ma)) ∧
    (∀ csv : List Char, (∀ e ∈ parseCSV csv, (tsMillis e).isSome) →
      (parseCSV csv).Pairwise (fun a b => jsLE a b = true)) ∧
    (∀ ts amt entries (mNew : Int), isoMillis ts = some mNew →
      (∀ e ∈ entries, ∃ m, tsMillis e = some m ∧ m ≤ mNew) →
      entries.Pairwise (fun a b => jsLE a b = true) →
      addDose ts amt entries = ⟨ts, toFixed1 amt⟩ :: entries ∧
      (addDose ts amt entries).Pairwise (fun a b => jsLE a b = true)) ∧
    (∀ entries x, entries.Pairwise (fun a b => jsLE a b = true) →
      (deleteSingleDose entries x).Pairwise (fun a b => jsLE a b = true) ∧
      List.Sublist (deleteSingleDose entries x) entries) := by
  refine ⟨?_, ?_, ?_, ?_⟩
  · intro a b ma mb ha hb
    unfold jsLE jsCompare
    rw [ha, hb]
    simp
  · intro csv hsome
    rcases parseCSV_eq_cases csv with h | ⟨rows, h⟩
    · rw [h]
      exact List.Pairwise.nil
    · rw [h]
      apply pairwise_sortEntries
      intro x hx
      apply hsome
      rw [h]
      exact mem_sortEntries.mpr hx
  · intro ts amt entries mNew hnew hall hsorted
    refine ⟨rfl, List.pairwise_cons.mpr ⟨?_, hsorted⟩⟩
    intro x hx
    obtain ⟨mx, hmx, hle⟩ := hall x hx
    unfold jsLE jsCompare
    have hts : tsMillis ⟨ts, toFixed1 amt⟩ = some mNew := hnew
    rw [hmx, hts]
    simp
    omega
  · intro entries x h
    exact ⟨h.filter _, List.filter_sublist _⟩

/-- Witness for C5: decoding a concrete out-of-order two-line text gives
a pairwise-sorted log. -/
theorem doseLog_sorted_invariant_witness :
    (parseCSV
      "timestamp,amount\n2024-03-02T10:30:00+01:00,0.5\n2024-03-02T14:05:00+01:00,1".data).Pairwise
      (fun a b => jsLE a b = true) :=
  doseLog_sorted_invariant.2.1
    "timestamp,amount\n2024-03-02T10:30:00+01:00,0.5\n2024-03-02T14:05:00+01:00,1".data
    (by decide)

/-- Follows the spec's words: the line is "split once on the first comma
into a timestamp field and an amount field" ("split into at most two
parts" semantics), so the amount field is everything after the first
comma. -/
def parseLineSpecLimit2 (line : List Char) : Option DoseEntry :=
  let ts := line.takeWhile (fun c => c != ',')
  match line.dropWhile (fun c => c != ',') with
  | ',' :: amt =>
    if ts = [] ∨ amt = [] then none
    else
      match jsNumber amt with
      | some q => some ⟨jsTrim ts, q⟩
      | none => none
  | _ => none

/-- C6 counterexample: on a line with a second comma, the code reads the
field strictly between the first and second commas (keeping the line with
amount `1.5`), while split-into-at-most-two-parts semantics would read
`1.5,junk`, fail to parse it, and drop the line. -/
theorem parseLine_extra_comma_counterexample :
    parseLine "2024-01-01T10:00:00+01:00,1.5,junk".data =
      some ⟨"2024-01-01T10:00:00+01:00".data, 3 / 2⟩ ∧
    parseLineSpecLimit2 "2024-01-01T10:00:00+01:00,1.5,junk".data = none := by
  constructor
  · decide
  · decide

/-- C6 (amended): `parseLine` reads only the first two comma-separated
fields of the full split: anything from the second comma on is ignored,
the amount being the text strictly between the first and second commas;
both fields must be present (a line with no comma is dropped). -/
theorem parseLine_split_semantics (ts amt junk : List Char)
    (hts : ∀ c ∈ ts, c ≠ ',') (hamt : ∀ c ∈ amt, c ≠ ',') :
    parseLine (ts ++ ',' :: (amt ++ ',' :: junk)) = parseLine (ts ++ ',' :: amt) ∧
    parseLine ts = none := by
  constructor
  · unfold parseLine
    rw [splitOnComma_append (amt ++ ',' :: junk) hts, splitOnComma_append junk hamt,
      splitOnComma_append amt hts, splitOnComma_no_comma hamt]
  · unfold parseLine
    rw [splitOnComma_no_comma hts]

/-- Witness for the amended C6 at a concrete line with a junk third
field. -/
theorem parseLine_split_semantics_witness :
    parseLine "2024-01-01T10:00:00+01:00,1.5,junk".data =
      parseLine "2024-01-01T10:00:00+01:00,1.5".data :=
  (parseLine_split_semantics "2024-01-01T10:00:00+01:00".data "1.5".data "junk".data
    (by decide) (by decide)).1

theorem jsNumToString_natCast (n : Nat) : jsNumToString (n : ℚ) = natStr n := by
  have hpos : (0 : ℚ) ≤ (n : ℚ) := Nat.cast_nonneg n
  have h0 : absQ (n : ℚ) = (n : ℚ) := by
    unfold absQ
    rw [if_neg (not_lt.mpr hpos)]
  have hdec : decExp ((n : ℚ)) = some 0 := by
    show decExpAux 1200 ((n : ℚ)) = some 0
    rw [show decExpAux 1200 ((n : ℚ)) =
      if ((n : ℚ)).den = 1 then some 0
      else (decExpAux 1199 ((n : ℚ) * 10)).map Nat.succ from rfl,
      if_pos (Rat.den_natCast n)]
  have hm : (((n : ℚ) * 10 ^ 0).num).toNat = n := by
    rw [pow_zero, mul_one, Rat.num_natCast]
    exact Int.toNat_natCast n
  simp only [jsNumToString, h0, hdec]
  rw [if_neg (not_lt.mpr hpos), hm]
  simp [renderDec]

theorem jsNumToString_tenths (k : Nat) (hk : k % 10 ≠ 0) :
    jsNumToString ((k : ℚ) / 10) = natStr (k / 10) ++ '.' :: [Nat.digitChar (k % 10)] := by
  have hpos : (0 : ℚ) ≤ (k : ℚ) / 10 := by positivity
  have h0 : absQ ((k : ℚ) / 10) = (k : ℚ) / 10 := by
    unfold absQ
    rw [if_neg (not_lt.mpr hpos)]
  have hden1 : ((k : ℚ) / 10).den ≠ 1 := by
    intro hd
    have hnum := (Rat.den_eq_one_iff _).mp hd
    have hmul10 : (((k : ℚ) / 10).num : ℚ) * 10 = (k : ℚ) := by
      rw [hnum]
      field_simp
    have h10 : (10 : ℤ) ∣ (k : ℤ) := by
      refine ⟨((k : ℚ) / 10).num, ?_⟩
      have : ((10 * ((k : ℚ) / 10).num : ℤ) : ℚ) = ((k : ℤ) : ℚ) := by
        push_cast
        linarith [hmul10]
      exact_mod_cast this.symm
    have hdvd : (10 : ℕ) ∣ k := by exact_mod_cast h10
    omega
  have hmul : ((k : ℚ) / 10) * 10 = (k : ℚ) := by field_simp
  have hden2 : (((k : ℚ) / 10) * 10).den = 1 := by rw [hmul, Rat.den_natCast]
  have hdec : decExp ((k : ℚ) / 10) = some 1 := by
    show decExpAux 1200 ((k : ℚ) / 10) = some 1
    rw [show decExpAux 1200 ((k : ℚ) / 10) =
      if ((k : ℚ) / 10).den = 1 then some 0
      else (decExpAux 1199 (((k : ℚ) / 10) * 10)).map Nat.succ from rfl,
      if_neg hden1,
      show decExpAux 1199 (((k : ℚ) / 10) * 10) =
        if (((k : ℚ) / 10) * 10).den = 1 then some 0
        else (decExpAux 1198 ((((k : ℚ) / 10) * 10) * 10)).map Nat.succ from rfl,
      if_pos hden2]
    rfl
  have hm : ((((k : ℚ) / 10) * 10 ^ 1).num).toNat = k := by
    rw [pow_one, hmul, Rat.num_natCast]
    exact Int.toNat_natCast k
  have hx : natStr (k % 10) = [Nat.digitChar (k % 10)] := by
    have hlt : k % 10 < 10 := Nat.mod_lt _ (by norm_num)
    rw [natStr_eq_digits, if_neg hk,
      Nat.digits_def' (by norm_num : (1 : Nat) < 10) (Nat.pos_of_ne_zero hk)]
    simp [Nat.mod_eq_of_lt hlt, Nat.div_eq_of_lt hlt]
  simp only [jsNumToString, h0, hdec]
  rw [if_neg (not_lt.mpr hpos), hm,
    show renderDec k 1 = natStr (k / 10 ^ 1) ++ '.' :: padLeft 1 (natStr (k % 10 ^ 1)) from
      by rw [renderDec, if_neg (by norm_num)],
    pow_one, hx]
  simp [padLeft]

/-- C7 counterexample: an amount of `1` is persisted as `1` — not `1.0`
as claimed (JS default number formatting drops the decimal point for
whole numbers). -/
theorem entriesToCSV_whole_amount_counterexample :
    entriesToCSV [⟨"2024-03-02T14:05:00+01:00".data, 1⟩] =
      "timestamp,amount\n2024-03-02T14:05:00+01:00,1".data ∧
    entriesToCSV [⟨"2024-03-02T14:05:00+01:00".data, 1⟩] ≠
      "timestamp,amount\n2024-03-02T14:05:00+01:00,1.0".data := by
  constructor
  · decide
  · decide

/-- C7 (amended): the persisted amount field is JS default number
formatting, not fixed one-decimal formatting: an amount with a non-zero
tenths digit keeps its single decimal digit, while a whole-number amount
is written without any decimal point. -/
theorem entriesToCSV_amount_rendering (ts : List Char) (k n : Nat) (hk : k % 10 ≠ 0) :
    entriesToCSV [⟨ts, (k : ℚ) / 10⟩] =
      CSV_HEADER ++ '\n' ::
        (ts ++ ',' :: (natStr (k / 10) ++ '.' :: [Nat.digitChar (k % 10)])) ∧
    entriesToCSV [⟨ts, (n : ℚ)⟩] = CSV_HEADER ++ '\n' :: (ts ++ ',' :: natStr n) := by
  constructor
  · show joinNL [CSV_HEADER, ts ++ ',' :: jsNumToString ((k : ℚ) / 10)] = _
    rw [jsNumToString_tenths k hk]
    rfl
  · show joinNL [CSV_HEADER, ts ++ ',' :: jsNumToString ((n : ℚ))] = _
    rw [jsNumToString_natCast]
    rfl

/-- Witness for the amended C7: an amount of one half is persisted as
`0.5`. -/
theorem entriesToCSV_amount_rendering_witness :
    entriesToCSV [⟨"2024-03-02T14:05:00+01:00".data, (5 : ℚ) / 10⟩] =
      "timestamp,amount\n2024-03-02T14:05:00+01:00,0.5".data :=
  ((entriesToCSV_amount_rendering "2024-03-02T14:05:00+01:00".data 5 0
    (by decide)).1).trans (by decide)
